import Mathlib

/-!
Shallow embedding of the `oapi-codegen-validator` enrichment core.

The Go sources embedded here:
* `internal/tree/traversal.go` — generic lazy pre-order forest traversal
  (`tree.PreOrder`), modelled in namespace `tree` on an inductive forest.
* the enricher `main.go` — constants `tagKey`/`validate`, the schema-graph
  adapter (`toSchemaContext`, `getChildren`), the rule generator
  (`generateRules`), the rule merger (`mergeRules`, `getTagKey`), the
  extension accessor (`extractAndResetValidateRules`) and the orchestrator
  (`enrichNode`, `enrichSpec`), modelled in namespace `Oapi`.

Modelling conventions:
* Go maps (`openapi3.Schemas`, `Extensions`, inner extension maps,
  `existingKeys`) are modelled as association lists; a Go map assignment is
  `insertA` (replace first binding or append), `delete` is `eraseA`, and a
  Go map read is `lookupA`.  Go map iteration order is nondeterministic; the
  list order fixes one deterministic iteration order, which is the standard
  determinisation for a shallow embedding.
* Go in-place pointer mutation is modelled by explicit state passing: each
  mutating function returns the updated value next to its ordinary results.
* `float64` bounds (`Min`, `Max`) are modelled as `Int`: the enricher prints
  them with `%.0f`, which on the integral values the claims concern agrees
  with decimal `Int` printing.  `uint64` fields are `Nat`.
* `regexp.Compile` (Go standard library, outside this repository) is
  abstracted as a parameter `compileOk : String → Bool` deciding whether a
  pattern compiles; every result below holds for an arbitrary such oracle.
* String splitting/trimming/joining are given executable structural
  definitions over `List Char` mirroring `strings.Split`, `strings.TrimSpace`
  and `strings.Join` for the comma separator used by the source.
-/

namespace Oapi

/-- `strings.TrimSpace`: drop leading and trailing whitespace characters. -/
def trimChars (l : List Char) : List Char :=
  ((l.dropWhile Char.isWhitespace).reverse.dropWhile Char.isWhitespace).reverse

/-- `strings.TrimSpace` on strings. -/
def trimStr (s : String) : String := ⟨trimChars s.data⟩

/-- `strings.Split(s, sep)` for a one-character separator, over `List Char`. -/
def splitOnCharList (c : Char) : List Char → List (List Char)
  | [] => [[]]
  | a :: as =>
    if a = c then [] :: splitOnCharList c as
    else
      match splitOnCharList c as with
      | [] => [[a]]
      | h :: t => (a :: h) :: t

/-- `strings.Split(s, string(c))` on strings. -/
def splitOnChar (c : Char) (s : String) : List String :=
  (splitOnCharList c s.data).map (fun l => ⟨l⟩)

/-- `strings.Join(l, ",")`. -/
def joinComma : List String → String
  | [] => ""
  | [x] => x
  | x :: xs => x ++ "," ++ joinComma xs

/-- Association-list read, modelling a Go map read (`m[k]`). -/
def lookupA {α : Type} (k : String) : List (String × α) → Option α
  | [] => none
  | (k2, v) :: rest => if k2 = k then some v else lookupA k rest

/-- Association-list write, modelling a Go map assignment (`m[k] = v`):
replace the binding in place if the key is present, else append. -/
def insertA {α : Type} (k : String) (v : α) : List (String × α) → List (String × α)
  | [] => [(k, v)]
  | (k2, v2) :: rest =>
    if k2 = k then (k, v) :: rest else (k2, v2) :: insertA k v rest

/-- Association-list delete, modelling `delete(m, k)`. -/
def eraseA {α : Type} (k : String) : List (String × α) → List (String × α)
  | [] => []
  | (k2, v) :: rest =>
    if k2 = k then eraseA k rest else (k2, v) :: eraseA k rest

/-- The well-known outer extension key (`tagKey` constant in the source). -/
def tagKey : String := "x-oapi-codegen-extra-tags"

/-- The well-known inner extension key (`validate` constant in the source). -/
def validate : String := "validate"

/-- Error values produced by the enricher.  The Go source builds them with
`fmt.Errorf`; the constructors keep the data that those format strings
interpolate, and `atProperty` models the `%w`-wrapping with the property's
qualified path (`property <ctx>.<prop>: <err>`). -/
inductive EnrichErr where
  | unsupportedMultipleOf : EnrichErr
  | invalidPattern (pat : String) : EnrichErr
  | conflict (existingTag generatedTag : String) : EnrichErr
  | atProperty (path : String) (e : EnrichErr) : EnrichErr
deriving DecidableEq, Repr

/-- `getTagKey`: the substring before the first `=`, or the whole tag. -/
def takeUntilEq : List Char → List Char
  | [] => []
  | c :: cs => if c = '=' then [] else c :: takeUntilEq cs

/-- `getTagKey` from the source (`strings.Index(tag, "=")` prefix). -/
def getTagKey (tag : String) : String := ⟨takeUntilEq tag.data⟩

/-- The constraint fields of `openapi3.Schema` read by `generateRules`
(the spec's ConstraintSet). -/
structure Constraints where
  multipleOf : Option Int := none
  pattern : String := ""
  minLength : Nat := 0
  maxLength : Option Nat := none
  min : Option Int := none
  exclusiveMin : Bool := false
  max : Option Int := none
  exclusiveMax : Bool := false
  minItems : Nat := 0
  maxItems : Option Nat := none
  uniqueItems : Bool := false
  format : String := ""
deriving DecidableEq, Repr

/-- The format switch at the end of `generateRules`. -/
def formatTag (format : String) : List String :=
  if format = "email" then ["email"]
  else if format = "uuid" then ["uuid"]
  else if format = "ipv4" then ["ipv4"]
  else if format = "ipv6" then ["ipv6"]
  else if format = "uri" ∨ format = "url" then ["url"]
  else []

/-- `generateRules` from the source.  The Go function appends to `tags`
block by block after two early error returns; since both error returns
happen before any append, it is the concatenation of the per-block
segments, written here in the source's block order. -/
def generateRules (compileOk : String → Bool) (s : Constraints) :
    Except EnrichErr (List String) :=
  if s.multipleOf.isSome then .error .unsupportedMultipleOf
  else if s.pattern ≠ "" ∧ ¬ compileOk s.pattern then
    .error (.invalidPattern s.pattern)
  else .ok
    ((if s.pattern ≠ "" then ["regex=" ++ s.pattern] else [])
      ++ (if s.minLength > 0 then ["min=" ++ toString s.minLength] else [])
      ++ (match s.maxLength with
          | some m => ["max=" ++ toString m]
          | none => [])
      ++ (match s.min with
          | some v => [(if s.exclusiveMin then "gt" else "min") ++ "=" ++ toString v]
          | none => [])
      ++ (match s.max with
          | some v => [(if s.exclusiveMax then "lt" else "max") ++ "=" ++ toString v]
          | none => [])
      ++ (if s.minItems > 0 then ["min=" ++ toString s.minItems] else [])
      ++ (match s.maxItems with
          | some m => ["max=" ++ toString m]
          | none => [])
      ++ (if s.uniqueItems then ["unique"] else [])
      ++ formatTag s.format)

/-- First loop of `mergeRules`: trim each existing rule, skip empties, keep
the rest in order and record `existingKeys[key] = part` (the cons models the
map overwrite: `lookupA` finds the most recent binding first). -/
def mergeExistingLoop : List String → List String × List (String × String)
  | [] => ([], [])
  | part :: rest =>
    let part2 := trimStr part
    if part2 = "" then mergeExistingLoop rest
    else
      let r := mergeExistingLoop rest
      (part2 :: r.1, r.2 ++ [(getTagKey part2, part2)])

/-- Second loop of `mergeRules`: for each generated tag, skip when an
identical token already owns the key, fail on a differing token, append
fresh keys. -/
def mergeNewLoop (rules : List String) (keys : List (String × String)) :
    List String → Except EnrichErr (List String)
  | [] => .ok rules
  | tag :: rest =>
    let key := getTagKey tag
    match lookupA key keys with
    | some existingTag =>
      if existingTag ≠ tag then .error (.conflict existingTag tag)
      else mergeNewLoop rules keys rest
    | none => mergeNewLoop (rules ++ [tag]) (keys ++ [(key, tag)]) rest

/-- `mergeRules` from the source. -/
def mergeRules (existingRules newRules : List String) :
    Except EnrichErr (List String) :=
  let p := mergeExistingLoop existingRules
  mergeNewLoop p.1 p.2 newRules

/-- A value stored in an extensions map (`map[string]any` in Go): a string,
a nested string-keyed map, or any other dynamic value (whose precise shape
the enricher never inspects). -/
inductive ExtVal where
  | str (s : String) : ExtVal
  | map (m : List (String × ExtVal)) : ExtVal
  | other : ExtVal

mutual

/-- `openapi3.Schema`, restricted to the fields the enricher reads or
writes: the constraint fields, `Required`, `Extensions` and `Properties`.
Properties and the optional dereferenced value use the bespoke mutual types
`Props`/`ValOpt` so that all recursions below are structural. -/
inductive Schema where
  | mk (constraints : Constraints) (required : List String)
       (extensions : List (String × ExtVal)) (properties : Props) : Schema

/-- `openapi3.Schemas` restricted to one schema's `Properties`: an ordered
association of property name to `SchemaRef`. -/
inductive Props where
  | nil : Props
  | cons (name : String) (ref : SchemaRef) (rest : Props) : Props

/-- `openapi3.SchemaRef`: the `$ref` indirection marker and the resolved
value (`nil` when the indirection could not be resolved). -/
inductive SchemaRef where
  | mk (ref : String) (value : ValOpt) : SchemaRef

/-- `*openapi3.Schema`: either `nil` or a concrete schema. -/
inductive ValOpt where
  | none : ValOpt
  | some (s : Schema) : ValOpt

end

def Schema.constraints : Schema → Constraints
  | .mk c _ _ _ => c

def Schema.required : Schema → List String
  | .mk _ r _ _ => r

def Schema.extensions : Schema → List (String × ExtVal)
  | .mk _ _ e _ => e

def Schema.properties : Schema → Props
  | .mk _ _ _ p => p

def Schema.setExtensions : Schema → List (String × ExtVal) → Schema
  | .mk c r _ p, e => .mk c r e p

def Schema.setProps : Schema → Props → Schema
  | .mk c r e _, p => .mk c r e p

def SchemaRef.ref : SchemaRef → String
  | .mk r _ => r

def SchemaRef.value : SchemaRef → ValOpt
  | .mk _ v => v

/-- Observer: the comma-joined rule string stored under
`Extensions[tagKey]["validate"]`, when present as a string inside a map. -/
def Schema.storedValidate (s : Schema) : Option String :=
  match lookupA tagKey s.extensions with
  | some (.map m) =>
    match lookupA validate m with
    | some (.str v) => some v
    | _ => none
  | _ => none

/-- The parsing loop inside `extractAndResetValidateRules`: split the stored
string on commas, trim each part, drop empties; the empty string yields no
rules (the source only splits when `existingVal != ""`). -/
def parseRules (v : String) : List String :=
  if v = "" then []
  else ((splitOnChar ',' v).map trimStr).filter (fun p => p ≠ "")

/-- `extractAndResetValidateRules` from the source.  Returns the parsed
rules, the inner extension map after `delete(extMap, validate)`, and the
schema state after the call: when `Extensions[tagKey]` holds a map, the Go
`delete` mutates that shared map in place, so the schema's stored entry
loses its `validate` key; in every other case (`tagKey` absent or bound to
a non-map value) `extMap` is a fresh empty map and the extensions are left
as they were.  (The `nil`→empty-map initialisation of `Extensions` is
invisible in the association-list model.) -/
def extractAndResetValidateRules (s : Schema) :
    List String × List (String × ExtVal) × Schema :=
  match lookupA tagKey s.extensions with
  | some (.map m) =>
    let existingVal :=
      match lookupA validate m with
      | some (.str v) => v
      | _ => ""
    let m2 := eraseA validate m
    (parseRules existingVal, m2,
      s.setExtensions (insertA tagKey (.map m2) s.extensions))
  | _ => ([], [], s)

/-- The body of `enrichNode`'s property loop for a single property whose
`Value` is non-nil: generate, extract, merge, then decide the leading token
and write back (or delete the outer key).  Returns the property schema's new
state and the wrapped error, if any.  On a generation error nothing has been
touched; on a merge error the extraction's reset has already happened. -/
def enrichPropStep (compileOk : String → Bool) (ctxName propName : String)
    (required : List String) (ps : Schema) : Schema × Option EnrichErr :=
  match generateRules compileOk ps.constraints with
  | .error e => (ps, some (.atProperty (ctxName ++ "." ++ propName) e))
  | .ok oapiRules =>
    let ex := extractAndResetValidateRules ps
    let validatorRules := ex.1
    let extMap := ex.2.1
    let ps1 := ex.2.2
    match mergeRules validatorRules oapiRules with
    | .error e => (ps1, some (.atProperty (ctxName ++ "." ++ propName) e))
    | .ok rules =>
      if required.contains propName then
        (ps1.setExtensions
          (insertA tagKey
            (.map (insertA validate (.str (joinComma ("required" :: rules))) extMap))
            ps1.extensions), none)
      else if rules ≠ [] then
        (ps1.setExtensions
          (insertA tagKey
            (.map (insertA validate (.str (joinComma ("omitempty" :: rules))) extMap))
            ps1.extensions), none)
      else
        (ps1.setExtensions (eraseA tagKey ps1.extensions), none)

/-- The property loop of `enrichNode`: step each property with a non-nil
value in order; on the first error, return it and leave the remaining
properties untouched (the source's early `return`). -/
def enrichProps (compileOk : String → Bool) (ctxName : String)
    (required : List String) : Props → Props × Option EnrichErr
  | .nil => (.nil, Option.none)
  | .cons pname r rest =>
    match r with
    | .mk ref .none =>
      let r2 := enrichProps compileOk ctxName required rest
      (.cons pname (.mk ref .none) r2.1, r2.2)
    | .mk ref (.some ps) =>
      let step := enrichPropStep compileOk ctxName pname required ps
      match step.2 with
      | some e => (.cons pname (.mk ref (.some step.1)) rest, some e)
      | Option.none =>
        let r2 := enrichProps compileOk ctxName required rest
        (.cons pname (.mk ref (.some step.1)) r2.1, r2.2)

/-- `enrichNode` from the source: run the property loop against this node's
own `Required` list and `Properties`. -/
def enrichNode (compileOk : String → Bool) (ctxName : String) (s : Schema) :
    Schema × Option EnrichErr :=
  let r := enrichProps compileOk ctxName s.required s.properties
  (s.setProps r.1, r.2)

mutual

/-- Number of schema nodes hanging below (and including) a schema; used as
an always-sufficient fuel bound for the traversal depth. -/
def Schema.size : Schema → Nat
  | .mk _ _ _ p => 1 + Props.size p

def Props.size : Props → Nat
  | .nil => 0
  | .cons _ r rest => SchemaRef.size r + Props.size rest

def SchemaRef.size : SchemaRef → Nat
  | .mk _ .none => 1
  | .mk _ (.some s) => 1 + Schema.size s

end

def optErrList : Option EnrichErr → List EnrichErr
  | Option.none => []
  | some e => [e]

/-- `getChildren` from the source, applied to one schema: the walk descends
into each property with a non-nil value, qualifying its name with the
parent's dotted path; `enrich` is the recursive visit.  The source's
`getChildren` mutates nothing — in particular it does not clear the
property reference's `Ref` marker — so only property values change. -/
def enrichChildrenF (enrich : String → Schema → Schema × List EnrichErr)
    (parentName : String) : Props → Props × List EnrichErr
  | .nil => (.nil, [])
  | .cons pname r rest =>
    match r with
    | .mk ref .none =>
      let r2 := enrichChildrenF enrich parentName rest
      (.cons pname (.mk ref .none) r2.1, r2.2)
    | .mk ref (.some c) =>
      let c2 := enrich (parentName ++ "." ++ pname) c
      let r2 := enrichChildrenF enrich parentName rest
      (.cons pname (.mk ref (.some c2.1)) r2.1, c2.2 ++ r2.2)

/-- One root's slice of the orchestration: `tree.PreOrder` visits the node
itself (`enrichNode`) and then every descendant depth-first through
`getChildren`, and `enrichSpec` joins the per-node errors in visit order.
The Go recursion is unbounded; `fuel` bounds the recursion depth and every
caller below passes `Schema.size`, which exceeds the depth of any schema
tree, so the zero-fuel branch is never taken on those calls. -/
def enrichTree (compileOk : String → Bool) :
    Nat → String → Schema → Schema × List EnrichErr
  | 0, _, s => (s, [])
  | fuel + 1, name, s =>
    let r1 := enrichNode compileOk name s
    let r2 := enrichChildrenF (enrichTree compileOk fuel) name r1.1.properties
    (r1.1.setProps r2.1, optErrList r1.2 ++ r2.2)

/-- `toSchemaContext` applied to the whole `doc.Components.Schemas` map:
for each entry with a non-nil `Value`, the adapter clears the indirection
marker (`ref.Ref = ""`) and yields the concrete schema with the component's
name; entries with a nil `Value` yield nothing and stay untouched.  Returns
the yielded (schema, name) contexts and the updated schemas map. -/
def toSchemaContext (schemas : List (String × SchemaRef)) :
    List (Schema × String) × List (String × SchemaRef) :=
  match schemas with
  | [] => ([], [])
  | (name, SchemaRef.mk ref v) :: rest =>
    let r := toSchemaContext rest
    match v with
    | .none => (r.1, (name, SchemaRef.mk ref .none) :: r.2)
    | .some s => ((s, name) :: r.1, (name, SchemaRef.mk "" (.some s)) :: r.2)

/-- The property iteration inside `getChildren`, yielding each non-nil
child with its qualified name. -/
def getChildrenGo (parentName : String) : Props → List (Schema × String)
  | .nil => []
  | .cons pname r rest =>
    match r with
    | .mk _ .none => getChildrenGo parentName rest
    | .mk _ (.some c) =>
      (c, parentName ++ "." ++ pname) :: getChildrenGo parentName rest

/-- `getChildren` from the source as a pure child enumerator: the contexts
yielded for one node, in property order. -/
def getChildren (ctx : Schema × String) : List (Schema × String) :=
  getChildrenGo ctx.2 ctx.1.properties

/-- `enrichSpec` from the source, on the document's component-schemas map:
pull each root in order — clearing its `Ref` as `toSchemaContext` yields it —
walk its subtree pre-order enriching every node, and accumulate every
per-node error (`errors.Join` keeps all of them, in order). -/
def enrichSpec (compileOk : String → Bool) (schemas : List (String × SchemaRef)) :
    List (String × SchemaRef) × List EnrichErr :=
  match schemas with
  | [] => ([], [])
  | (name, SchemaRef.mk ref v) :: rest =>
    let r := enrichSpec compileOk rest
    match v with
    | .none => ((name, SchemaRef.mk ref .none) :: r.1, r.2)
    | .some s =>
      let t := enrichTree compileOk (Schema.size s) name s
      ((name, SchemaRef.mk "" (.some t.1)) :: r.1, t.2 ++ r.2)

/-- Observer: the `SchemaRef` stored for a component name. -/
def docRef (schemas : List (String × SchemaRef)) (name : String) : Option SchemaRef :=
  lookupA name schemas

/-- Observer: a root component's schema value. -/
def docSchema (schemas : List (String × SchemaRef)) (name : String) : Option Schema :=
  match docRef schemas name with
  | some (SchemaRef.mk _ (.some s)) => some s
  | _ => Option.none

def Props.find (pname : String) : Props → Option SchemaRef
  | .nil => Option.none
  | .cons n r rest => if n = pname then some r else Props.find pname rest

/-- Observer: a property's stored `validate` string inside a root schema. -/
def validateAt (schemas : List (String × SchemaRef)) (sname pname : String) :
    Option String :=
  match docSchema schemas sname with
  | some s =>
    match Props.find pname s.properties with
    | some (SchemaRef.mk _ (.some ps)) => ps.storedValidate
    | _ => Option.none
  | _ => Option.none

/-- Observer: a property's `Ref` indirection marker inside a root schema. -/
def propRefAt (schemas : List (String × SchemaRef)) (sname pname : String) :
    Option String :=
  match docSchema schemas sname with
  | some s =>
    match Props.find pname s.properties with
    | some r => some r.ref
    | _ => Option.none
  | _ => Option.none

mutual

/-- All `Ref` indirection markers stored on property references anywhere
below a schema, in property order (root component refs excluded). -/
def Schema.propRefs : Schema → List String
  | .mk _ _ _ p => Props.refsList p

def Props.refsList : Props → List String
  | .nil => []
  | .cons _ r rest => SchemaRef.refEntry r ++ Props.refsList rest

def SchemaRef.refEntry : SchemaRef → List String
  | .mk ref .none => [ref]
  | .mk ref (.some s) => ref :: Schema.propRefs s

end

/-- The net effect of `mergeRules`' first loop on the rule list, as the
spec phrases it: each existing rule trimmed, blank entries dropped, order
kept. -/
def cleanseRules (l : List String) : List String :=
  (l.map trimStr).filter (fun p => p ≠ "")

/-- The key map accumulated by `mergeRules`' second loop after processing a
prefix of the generated rules: a generated rule binds its key only when the
key was still free. -/
def keysAfter (keys : List (String × String)) : List String → List (String × String)
  | [] => keys
  | t :: ts =>
    match lookupA (getTagKey t) keys with
    | some _ => keysAfter keys ts
    | none => keysAfter (keys ++ [(getTagKey t, t)]) ts

/-- Exactly the generated rules that `mergeRules`' second loop appends: a
rule is kept, in generator order, precisely when its key is not yet bound
at the moment it is processed (bound keys — whether by an existing rule or
by an earlier appended generated rule — are skipped, never duplicated). -/
def freshSelect (keys : List (String × String)) : List String → List String
  | [] => []
  | t :: ts =>
    match lookupA (getTagKey t) keys with
    | some _ => freshSelect keys ts
    | none => t :: freshSelect (keys ++ [(getTagKey t, t)]) ts

/-- The sibling loop of the pre-order visit over adapter contexts, with the
recursive visit passed as `visit`. -/
def ctxPreOrderAux (visit : Schema × String → List (Schema × String)) :
    List (Schema × String) → List (Schema × String)
  | [] => []
  | c :: cs => visit c ++ ctxPreOrderAux visit cs

/-- The node sequence `tree.PreOrder (toSchemaContext …) getChildren`
yields below one context of the original document: the context itself, then
its `getChildren` contexts depth-first, left to right.  Fuel bounds the
depth exactly as in `enrichTree`. -/
def ctxPreOrder : Nat → Schema × String → List (Schema × String)
  | 0, _ => []
  | fuel + 1, ctx => ctx :: ctxPreOrderAux (ctxPreOrder fuel) (getChildren ctx)

/-- Spec check 2 of the generator: the pattern segment. -/
def genPatternSeg (s : Constraints) : List String :=
  if s.pattern ≠ "" then ["regex=" ++ s.pattern] else []

/-- Spec check 3 of the generator: the string-length segment. -/
def genStringSeg (s : Constraints) : List String :=
  (if s.minLength > 0 then ["min=" ++ toString s.minLength] else [])
    ++ (match s.maxLength with
        | some m => ["max=" ++ toString m]
        | none => [])

/-- Spec check 4 of the generator: the numeric-bounds segment. -/
def genNumericSeg (s : Constraints) : List String :=
  (match s.min with
    | some v => [(if s.exclusiveMin then "gt" else "min") ++ "=" ++ toString v]
    | none => [])
    ++ (match s.max with
        | some v => [(if s.exclusiveMax then "lt" else "max") ++ "=" ++ toString v]
        | none => [])

/-- Spec check 5 of the generator: the array-cardinality segment. -/
def genArraySeg (s : Constraints) : List String :=
  (if s.minItems > 0 then ["min=" ++ toString s.minItems] else [])
    ++ (match s.maxItems with
        | some m => ["max=" ++ toString m]
        | none => [])
    ++ (if s.uniqueItems then ["unique"] else [])

/-- A regex oracle accepting every pattern; used to instantiate concrete
runs whose schemas carry no pattern. -/
def ckTrue : String → Bool := fun _ => true

/-- A schema with no constraints, no required list, no extensions and no
properties. -/
def emptySchema : Schema := .mk {} [] [] .nil

/-- The `TestEnrichSchema_Required` shape: component `User`, required
property `username` with an unconstrained schema. -/
def userDoc : List (String × SchemaRef) :=
  [("User",
    SchemaRef.mk ""
      (.some (.mk {} ["username"] []
        (.cons "username" (.mk "" (.some emptySchema)) .nil))))]

/-- A property schema generating `min=5` whose stored rule string is the
conflicting `min=3`. -/
def conflictSchema : Schema :=
  .mk { minLength := 5 } [] [(tagKey, .map [(validate, .str "min=3")])] .nil

/-- A schema whose generator always fails (`multipleOf` present). -/
def badSchema : Schema := .mk { multipleOf := some 1 } [] [] .nil

/-- Component `A` with two properties `p` and `q` whose generators both
fail. -/
def twoBadDoc : List (String × SchemaRef) :=
  [("A",
    SchemaRef.mk ""
      (.some (.mk {} [] []
        (.cons "p" (.mk "" (.some badSchema))
          (.cons "q" (.mk "" (.some badSchema)) .nil)))))]

/-- A single-property schema whose generator fails, for component `name`
with property `pname`. -/
def oneBadRoot (pname : String) : Schema :=
  .mk {} [] [] (.cons pname (.mk "" (.some badSchema)) .nil)

/-- Component `A`, itself behind the marker `#/root`, whose property `p`
carries the indirection marker `#/components/schemas/B` with a resolved
value. -/
def refMarkerDoc : List (String × SchemaRef) :=
  [("A",
    SchemaRef.mk "#/root"
      (.some (.mk {} [] []
        (.cons "p" (.mk "#/components/schemas/B" (.some emptySchema)) .nil))))]

end Oapi

namespace tree

mutual

/-- A finite acyclic forest node: the premise of `PreOrder`'s contract.  A
`Node` packages one value of the Go type parameter `T` together with the
(finite) sequence `getChildren` returns for it, so a `Node`/`Forest` pair is
exactly "a sequence of roots plus a child-producing function" restricted to
the finite acyclic case. -/
inductive Node (α : Type) where
  | node : α → Forest α → Node α

/-- A finite sequence of sibling nodes. -/
inductive Forest (α : Type) where
  | nil : Forest α
  | cons : Node α → Forest α → Forest α

end

/-- The direct children of a forest, as a list of subtree nodes. -/
def Forest.toList {α : Type} : Forest α → List (Node α)
  | .nil => []
  | .cons t f => t :: Forest.toList f

mutual

/-- `walk` from `tree.PreOrder`: yield the node, then walk each child. -/
def walk {α : Type} : Node α → List (Node α)
  | .node a f => .node a f :: walkForest f

/-- The `for child := range getChildren(n)` / `for root := range roots`
loops: walk each tree of the sequence left to right. -/
def walkForest {α : Type} : Forest α → List (Node α)
  | .nil => []
  | .cons t f => walk t ++ walkForest f

end

/-- `tree.PreOrder` from `internal/tree/traversal.go`, fully enumerated (the
orchestrator always consumes the whole sequence). -/
def PreOrder {α : Type} (roots : Forest α) : List (Node α) :=
  walkForest roots

/-- `Desc s t`: the node `s` is a strict descendant of `t`. -/
inductive Desc {α : Type} : Node α → Node α → Prop where
  | child {c : Node α} {a : α} {f : Forest α} :
      c ∈ f.toList → Desc c (.node a f)
  | trans {d c : Node α} {a : α} {f : Forest α} :
      c ∈ f.toList → Desc d c → Desc d (.node a f)

theorem desc_node_iff {α : Type} (s : Node α) (a : α) (f : Forest α) :
    Desc s (.node a f) ↔ ∃ c, c ∈ f.toList ∧ (s = c ∨ Desc s c) := by
  constructor
  · intro h
    cases h with
    | child hc => exact ⟨s, hc, Or.inl rfl⟩
    | trans hc hd => exact ⟨_, hc, Or.inr hd⟩
  · rintro ⟨c, hc, hs | hd⟩
    · subst hs; exact Desc.child hc
    · exact Desc.trans hc hd

mutual

theorem mem_walk {α : Type} (t : Node α) :
    ∀ s : Node α, s ∈ walk t ↔ s = t ∨ Desc s t := by
  match t with
  | .node a f =>
    intro s
    rw [walk, List.mem_cons, mem_walkForest f s, desc_node_iff]

theorem mem_walkForest {α : Type} (f : Forest α) :
    ∀ s : Node α, s ∈ walkForest f ↔ ∃ c, c ∈ f.toList ∧ (s = c ∨ Desc s c) := by
  match f with
  | .nil =>
    intro s
    simp [walkForest, Forest.toList]
  | .cons t f2 =>
    intro s
    rw [walkForest, List.mem_append, mem_walk t s, mem_walkForest f2 s]
    simp only [Forest.toList, List.mem_cons]
    constructor
    · rintro (h | ⟨c, hc, h⟩)
      · exact ⟨t, Or.inl rfl, h⟩
      · exact ⟨c, Or.inr hc, h⟩
    · rintro ⟨c, hc | hc, h⟩
      · subst hc; exact Or.inl h
      · exact Or.inr ⟨c, hc, h⟩

end

end tree

namespace Oapi

theorem lookupA_insertA_self {α : Type} (k : String) (v : α) (l : List (String × α)) :
    lookupA k (insertA k v l) = some v := by
  induction l with
  | nil => simp [insertA, lookupA]
  | cons p rest ih =>
    obtain ⟨k2, v2⟩ := p
    by_cases h : k2 = k
    · simp [insertA, h, lookupA]
    · simp [insertA, h, lookupA, ih]

theorem lookupA_eraseA_self {α : Type} (k : String) (l : List (String × α)) :
    lookupA k (eraseA k l) = Option.none := by
  induction l with
  | nil => simp [eraseA, lookupA]
  | cons p rest ih =>
    obtain ⟨k2, v2⟩ := p
    by_cases h : k2 = k
    · simp [eraseA, h, ih]
    · simp [eraseA, h, lookupA, ih]

theorem extensions_setExtensions (s : Schema) (e : List (String × ExtVal)) :
    (s.setExtensions e).extensions = e := by
  cases s; rfl

theorem properties_setProps (s : Schema) (p : Props) :
    (s.setProps p).properties = p := by
  cases s; rfl

theorem propRefs_setExtensions (s : Schema) (e : List (String × ExtVal)) :
    (s.setExtensions e).propRefs = s.propRefs := by
  cases s; rfl

theorem propRefs_setProps (s : Schema) (p : Props) :
    (s.setProps p).propRefs = Props.refsList p := by
  cases s; rfl

theorem propRefs_eq_refsList (s : Schema) :
    s.propRefs = Props.refsList s.properties := by
  cases s; rfl

/-- C7.  The rule generator is deterministic (it is a pure function of the
constraint set — in this embedding a Lean function, so repeated calls agree
definitionally) and every successful run is the concatenation, in the
spec's fixed check order, of the pattern, string-length, numeric-bound,
array and format segments; in particular `minLength=5, maxLength=10` yields
exactly `["min=5", "max=10"]` in that positional order. -/
theorem c7_generator_order :
    (∀ (compileOk : String → Bool) (s : Constraints) (l : List String),
        generateRules compileOk s = .ok l →
          l = genPatternSeg s ++ genStringSeg s ++ genNumericSeg s
              ++ genArraySeg s ++ formatTag s.format)
    ∧ generateRules ckTrue { minLength := 5, maxLength := some 10 } =
        .ok ["min=5", "max=10"] := by
  constructor
  · intro ck s l h
    unfold generateRules at h
    split at h
    · exact absurd h (by simp)
    · split at h
      · exact absurd h (by simp)
      · simp only [Except.ok.injEq] at h
        subst h
        simp [genPatternSeg, genStringSeg, genNumericSeg, genArraySeg,
          List.append_assoc]
  · rfl

/-- C7 witness: the general decomposition applied to the concrete
`minLength=5, maxLength=10` constraint set. -/
theorem c7_witness :
    ["min=5", "max=10"] =
      genPatternSeg { minLength := 5, maxLength := some 10 }
        ++ genStringSeg { minLength := 5, maxLength := some 10 }
        ++ genNumericSeg { minLength := 5, maxLength := some 10 }
        ++ genArraySeg { minLength := 5, maxLength := some 10 }
        ++ formatTag ({ minLength := 5, maxLength := some 10 } : Constraints).format :=
  c7_generator_order.1 ckTrue { minLength := 5, maxLength := some 10 }
    ["min=5", "max=10"] c7_generator_order.2

/-- C10.  When rule generation fails for a property, `enrichNode` returns
before `extractAndResetValidateRules` runs, so the property's schema —
extension metadata included — is returned exactly as it was, with the
wrapped path-qualified generation error. -/
theorem c10_generation_failure_keeps_metadata :
    ∀ (compileOk : String → Bool) (ctxName propName : String)
      (required : List String) (ps : Schema) (e : EnrichErr),
      generateRules compileOk ps.constraints = .error e →
        enrichPropStep compileOk ctxName propName required ps =
          (ps, some (.atProperty (ctxName ++ "." ++ propName) e)) := by
  intro ck cn pn req ps e h
  unfold enrichPropStep
  rw [h]

/-- C10 witness: a property whose schema carries `multipleOf` is returned
untouched together with the wrapped `unsupportedMultipleOf` error. -/
theorem c10_witness :
    generateRules ckTrue badSchema.constraints = .error .unsupportedMultipleOf
    ∧ enrichPropStep ckTrue "A" "p" [] badSchema =
        (badSchema, some (.atProperty "A.p" .unsupportedMultipleOf)) :=
  ⟨rfl, c10_generation_failure_keeps_metadata ckTrue "A" "p" [] badSchema
    .unsupportedMultipleOf rfl⟩

end Oapi

namespace Oapi

/-- Writing a joined rule string under `tagKey`/`validate` makes it the
stored validate string. -/
theorem storedValidate_insert (s : Schema) (m : List (String × ExtVal))
    (j : String) (E : List (String × ExtVal)) :
    (s.setExtensions (insertA tagKey (.map (insertA validate (.str j) m)) E)).storedValidate
      = some j := by
  simp [Schema.storedValidate, extensions_setExtensions, lookupA_insertA_self]

/-- C9.  For a property that is not required and whose merged rule set is
empty, `enrichNode` deletes the entire outer `tagKey` entry from the
property's extensions — afterwards no binding for the outer key remains, so
any other inner entries the author stored under it are discarded with it,
not merely the `validate` entry. -/
theorem c9_outer_key_deleted :
    ∀ (compileOk : String → Bool) (ctxName propName : String)
      (required : List String) (ps : Schema) (extMap : List (String × ExtVal))
      (ps1 : Schema),
      required.contains propName = false →
      generateRules compileOk ps.constraints = .ok [] →
      extractAndResetValidateRules ps = ([], extMap, ps1) →
        enrichPropStep compileOk ctxName propName required ps =
          (ps1.setExtensions (eraseA tagKey ps1.extensions), Option.none)
        ∧ lookupA tagKey (eraseA tagKey ps1.extensions) = Option.none := by
  intro ck cn pn req ps extMap ps1 hreq hg he
  refine ⟨?_, lookupA_eraseA_self _ _⟩
  unfold enrichPropStep
  rw [hg]
  simp only [he, hreq]
  rfl

/-- C5.  After a successful generate/extract/merge, `enrichNode` prepends
exactly one leading token: `required` when the property name is in the
parent node's required list; otherwise `omitempty` when the merged set is
non-empty; otherwise nothing, in which case the validation extension slot
(the outer `tagKey` entry) is deleted entirely rather than written empty. -/
theorem c5_prefix_decision :
    ∀ (compileOk : String → Bool) (ctxName propName : String) (required : List String)
      (ps : Schema) (g ex : List String) (extMap : List (String × ExtVal))
      (ps1 : Schema) (rules : List String),
      generateRules compileOk ps.constraints = .ok g →
      extractAndResetValidateRules ps = (ex, extMap, ps1) →
      mergeRules ex g = .ok rules →
        ((required.contains propName = true →
            enrichPropStep compileOk ctxName propName required ps =
              (ps1.setExtensions
                (insertA tagKey
                  (.map (insertA validate (.str (joinComma ("required" :: rules))) extMap))
                  ps1.extensions), Option.none)
            ∧ (enrichPropStep compileOk ctxName propName required ps).1.storedValidate =
                some (joinComma ("required" :: rules)))
          ∧ (required.contains propName = false → rules ≠ [] →
              enrichPropStep compileOk ctxName propName required ps =
                (ps1.setExtensions
                  (insertA tagKey
                    (.map (insertA validate (.str (joinComma ("omitempty" :: rules))) extMap))
                    ps1.extensions), Option.none)
              ∧ (enrichPropStep compileOk ctxName propName required ps).1.storedValidate =
                  some (joinComma ("omitempty" :: rules)))
          ∧ (required.contains propName = false → rules = [] →
              enrichPropStep compileOk ctxName propName required ps =
                (ps1.setExtensions (eraseA tagKey ps1.extensions), Option.none)
              ∧ lookupA tagKey
                  (enrichPropStep compileOk ctxName propName required ps).1.extensions =
                    Option.none)) := by
  intro ck cn pn req ps g ex extMap ps1 rules hg he hm
  refine ⟨?_, ?_, ?_⟩
  · intro hb
    have h1 : enrichPropStep ck cn pn req ps =
        (ps1.setExtensions
          (insertA tagKey
            (.map (insertA validate (.str (joinComma ("required" :: rules))) extMap))
            ps1.extensions), Option.none) := by
      unfold enrichPropStep
      rw [hg]
      simp only [he, hm, hb]
      rfl
    refine ⟨h1, ?_⟩
    rw [h1]
    exact storedValidate_insert _ _ _ _
  · intro hb hr
    have h1 : enrichPropStep ck cn pn req ps =
        (ps1.setExtensions
          (insertA tagKey
            (.map (insertA validate (.str (joinComma ("omitempty" :: rules))) extMap))
            ps1.extensions), Option.none) := by
      unfold enrichPropStep
      rw [hg]
      simp only [he, hm, hb]
      rw [if_neg (by simp)]
      rw [if_pos hr]
    refine ⟨h1, ?_⟩
    rw [h1]
    exact storedValidate_insert _ _ _ _
  · intro hb hr
    subst hr
    have h1 : enrichPropStep ck cn pn req ps =
        (ps1.setExtensions (eraseA tagKey ps1.extensions), Option.none) := by
      unfold enrichPropStep
      rw [hg]
      simp only [he, hm, hb]
      rfl
    refine ⟨h1, ?_⟩
    rw [h1]
    rw [extensions_setExtensions]
    exact lookupA_eraseA_self _ _

end Oapi

namespace Oapi

/-- The key of any tag of the shape `min=<x>` is `min`. -/
theorem getTagKey_min_append (x : String) : getTagKey ("min=" ++ x) = "min" := rfl

/-- C1 (amended).  When a stored rule's key collides with a generated rule
under a different full token, `enrichNode` fails with the RuleConflict
error — but the stored rule string does NOT remain unmodified: the
`validate` entry was already deleted from the extension map by
`extractAndResetValidateRules` before `mergeRules` ran, so the error comes
back with the property's stored `validate` entry removed (inner map left
empty under `tagKey`). -/
theorem c1_conflict_resets_validate :
    ∀ (compileOk : String → Bool) (ctxName propName : String) (required : List String)
      (v : String) (n : Nat),
      parseRules v = [v] → trimStr v = v → v ≠ "" → getTagKey v = "min" →
      v ≠ "min=" ++ toString (n + 1) →
      enrichPropStep compileOk ctxName propName required
          (.mk { minLength := n + 1 } [] [(tagKey, .map [(validate, .str v)])] .nil) =
        (.mk { minLength := n + 1 } [] [(tagKey, .map [])] .nil,
          some (.atProperty (ctxName ++ "." ++ propName)
            (.conflict v ("min=" ++ toString (n + 1))))) := by
  intro ck cn pn req v n hparse htrim hne hkey hne2
  have hg : generateRules ck
      (Schema.mk { minLength := n + 1 } [] [(tagKey, .map [(validate, .str v)])] .nil).constraints
      = .ok ["min=" ++ toString (n + 1)] := by
    have hf : formatTag "" = [] := rfl
    simp [generateRules, hf, Schema.constraints]
  have he : extractAndResetValidateRules
      (.mk { minLength := n + 1 } [] [(tagKey, .map [(validate, .str v)])] .nil) =
      (parseRules v, [],
        .mk { minLength := n + 1 } [] [(tagKey, .map [])] .nil) := rfl
  have hexist : mergeExistingLoop [v] = ([v], [("min", v)]) := by
    simp [mergeExistingLoop, htrim, hne, hkey]
  have hm : mergeRules [v] ["min=" ++ toString (n + 1)] =
      .error (.conflict v ("min=" ++ toString (n + 1))) := by
    unfold mergeRules
    simp only [hexist]
    unfold mergeNewLoop
    rw [getTagKey_min_append]
    simp [lookupA, hne2]
  unfold enrichPropStep
  rw [hg]
  simp only [he, hparse, hm]

end Oapi

namespace Oapi

/-- C1 witness: the amended theorem at `minLength=5` against stored
`min=3`. -/
theorem c1_witness :
    (parseRules "min=3" = ["min=3"] ∧ trimStr "min=3" = "min=3" ∧ "min=3" ≠ ""
      ∧ getTagKey "min=3" = "min" ∧ "min=3" ≠ "min=" ++ toString (4 + 1))
    ∧ enrichPropStep ckTrue "A" "p" []
        (.mk { minLength := 4 + 1 } [] [(tagKey, .map [(validate, .str "min=3")])] .nil) =
      (.mk { minLength := 4 + 1 } [] [(tagKey, .map [])] .nil,
        some (.atProperty "A.p" (.conflict "min=3" ("min=" ++ toString (4 + 1))))) :=
  ⟨⟨by decide, by decide, by decide, by decide, by decide⟩,
    c1_conflict_resets_validate ckTrue "A" "p" [] "min=3" 4 (by decide) (by decide)
      (by decide) (by decide) (by decide)⟩

/-- C1 counterexample: on the concrete conflicting property the merge
fails with RuleConflict, yet the stored rule string has changed from
`min=3` to absent — refuting the claim that it remains unmodified. -/
theorem c1_counterexample :
    conflictSchema.storedValidate = some "min=3"
    ∧ (enrichPropStep ckTrue "A" "p" [] conflictSchema).2 =
        some (.atProperty "A.p" (.conflict "min=3" "min=5"))
    ∧ (enrichPropStep ckTrue "A" "p" [] conflictSchema).1.storedValidate = Option.none := by
  decide

/-- C2 (claim refuted by the code, bug exhibit): the first enrichment of
the `User`/`username` document succeeds and stores `required`; running
`enrichSpec` a second time also succeeds but stores `required,required` —
the leading token extracted from the stored string survives the merge and
the prefix is prepended again, so enrichment is not idempotent at the
document level. -/
theorem c2_second_pass_duplicates :
    (enrichSpec ckTrue userDoc).2 = []
    ∧ validateAt (enrichSpec ckTrue userDoc).1 "User" "username" = some "required"
    ∧ (enrichSpec ckTrue (enrichSpec ckTrue userDoc).1).2 = []
    ∧ validateAt (enrichSpec ckTrue (enrichSpec ckTrue userDoc).1).1 "User" "username" =
        some "required,required" := by
  decide

/-- C3 counterexample: a document whose single schema has two failing
properties yields an aggregate with only the first property's qualified
path; the second failing property is not visited. -/
theorem c3_counterexample :
    (enrichSpec ckTrue twoBadDoc).2 = [.atProperty "A.p" .unsupportedMultipleOf]
    ∧ EnrichErr.atProperty "A.q" .unsupportedMultipleOf ∉ (enrichSpec ckTrue twoBadDoc).2 := by
  decide

theorem required_setExtensions (s : Schema) (e : List (String × ExtVal)) :
    (s.setExtensions e).required = s.required := by
  cases s; rfl

theorem properties_setExtensions (s : Schema) (e : List (String × ExtVal)) :
    (s.setExtensions e).properties = s.properties := by
  cases s; rfl

/-- Extraction touches only extensions, never the required list. -/
theorem extract_required (s : Schema) :
    ((extractAndResetValidateRules s).2.2).required = s.required := by
  unfold extractAndResetValidateRules
  split
  · simp [required_setExtensions]
  · rfl

/-- Extraction touches only extensions, never the properties. -/
theorem extract_properties (s : Schema) :
    ((extractAndResetValidateRules s).2.2).properties = s.properties := by
  unfold extractAndResetValidateRules
  split
  · simp [properties_setExtensions]
  · rfl

/-- A property step touches only extensions, never the required list. -/
theorem enrichPropStep_required (ck : String → Bool) (cn pn : String)
    (req : List String) (ps : Schema) :
    ((enrichPropStep ck cn pn req ps).1).required = ps.required := by
  unfold enrichPropStep
  split
  · rfl
  · dsimp only
    repeat' split
    all_goals simp [required_setExtensions, extract_required]

/-- A property step touches only extensions, never the properties. -/
theorem enrichPropStep_properties (ck : String → Bool) (cn pn : String)
    (req : List String) (ps : Schema) :
    ((enrichPropStep ck cn pn req ps).1).properties = ps.properties := by
  unfold enrichPropStep
  split
  · rfl
  · dsimp only
    repeat' split
    all_goals simp [properties_setExtensions, extract_properties]

/-- The error slice of a subtree visit depends only on the node's required
list and properties, not on its own extensions — so enriching a node's
extensions cannot change what its subtree later reports. -/
theorem enrichTree_errs_congr (ck : String → Bool) (fuel : Nat) (nm : String)
    (c c2 : Schema) (hr : c.required = c2.required)
    (hp : c.properties = c2.properties) :
    (enrichTree ck fuel nm c).2 = (enrichTree ck fuel nm c2).2 := by
  cases fuel with
  | zero => rfl
  | succ f =>
    have hnode2 : (enrichNode ck nm c).2 = (enrichNode ck nm c2).2 := by
      simp [enrichNode, hr, hp]
    have hnodeP : (enrichNode ck nm c).1.properties =
        (enrichNode ck nm c2).1.properties := by
      simp [enrichNode, properties_setProps, hr, hp]
    simp only [enrichTree]
    rw [hnode2, hnodeP]

/-- The child walk's error list is the visit-order concatenation of the
per-child visits, over exactly the `getChildren` contexts. -/
theorem enrichChildrenF_errs (enrich : String → Schema → Schema × List EnrichErr)
    (nm : String) :
    ∀ props : Props,
      (enrichChildrenF enrich nm props).2 =
        ((getChildrenGo nm props).map (fun ctx => (enrich ctx.2 ctx.1).2)).flatten := by
  intro props
  match props with
  | .nil => rfl
  | .cons pname r rest =>
    have ih := enrichChildrenF_errs enrich nm rest
    cases r with
    | mk ref val =>
      cases val with
      | none => simp [enrichChildrenF, getChildrenGo, ih]
      | some c => simp [enrichChildrenF, getChildrenGo, ih]

/-- Enriching a node's properties does not change what its children's
subtrees later report: the property loop (whether it completes or stops on
an error) only rewrites extensions. -/
theorem enrichProps_children_errs (ck : String → Bool) (fuel : Nat)
    (cn nm : String) (req : List String) :
    ∀ props : Props,
      (getChildrenGo nm (enrichProps ck cn req props).1).map
          (fun ctx => (enrichTree ck fuel ctx.2 ctx.1).2) =
        (getChildrenGo nm props).map
          (fun ctx => (enrichTree ck fuel ctx.2 ctx.1).2) := by
  intro props
  match props with
  | .nil => rfl
  | .cons pname r rest =>
    have ih := enrichProps_children_errs ck fuel cn nm req rest
    cases r with
    | mk ref val =>
      cases val with
      | none => simp [enrichProps, getChildrenGo, ih]
      | some c =>
        have hcong := enrichTree_errs_congr ck fuel (nm ++ "." ++ pname)
          ((enrichPropStep ck cn pname req c).1) c
          (enrichPropStep_required ck cn pname req c)
          (enrichPropStep_properties ck cn pname req c)
        cases hs : (enrichPropStep ck cn pname req c).2 with
        | some e => simp [enrichProps, hs, getChildrenGo, hcong]
        | none => simp [enrichProps, hs, getChildrenGo, hcong, ih]

/-- Flattening a sibling walk is flattening the per-sibling walks. -/
theorem ctxPreOrderAux_map_flatten (fuel : Nat)
    (fm : Schema × String → List EnrichErr) :
    ∀ l : List (Schema × String),
      ((ctxPreOrderAux (ctxPreOrder fuel) l).map fm).flatten =
        (l.map (fun ctx => ((ctxPreOrder fuel ctx).map fm).flatten)).flatten := by
  intro l
  induction l with
  | nil => rfl
  | cons c cs ih => simp [ctxPreOrderAux, ih]

/-- The error list of a subtree visit is exactly the concatenation, over
the pre-order visit of every node of the original subtree, of that node's
single optional `enrichNode` error. -/
theorem enrichTree_errs_preorder (ck : String → Bool) :
    ∀ (fuel : Nat) (name : String) (s : Schema),
      (enrichTree ck fuel name s).2 =
        ((ctxPreOrder fuel (s, name)).map
          (fun ctx => optErrList (enrichNode ck ctx.2 ctx.1).2)).flatten := by
  intro fuel
  induction fuel with
  | zero => intro name s; rfl
  | succ f ih =>
    intro name s
    simp only [enrichTree, ctxPreOrder]
    rw [List.map_cons, List.flatten]
    congr 1
    rw [enrichChildrenF_errs]
    rw [show (enrichNode ck name s).1.properties =
        (enrichProps ck name s.required s.properties).1 from by
      simp [enrichNode, properties_setProps]]
    rw [show getChildren (s, name) = getChildrenGo name s.properties from rfl]
    rw [enrichProps_children_errs]
    rw [ctxPreOrderAux_map_flatten]
    simp only [ih, Prod.mk.eta]

/-- Every error a property step reports is wrapped with the property's
qualified dotted path. -/
theorem enrichPropStep_err_shape (ck : String → Bool) (cn pn : String)
    (req : List String) (ps : Schema) :
    ∀ e, (enrichPropStep ck cn pn req ps).2 = some e →
      ∃ e0, e = .atProperty (cn ++ "." ++ pn) e0 := by
  intro e h
  unfold enrichPropStep at h
  split at h
  · dsimp only at h
    injection h with h
    exact ⟨_, h.symm⟩
  · dsimp only at h
    split at h
    · dsimp only at h
      injection h with h
      exact ⟨_, h.symm⟩
    · repeat' split at h
      all_goals simp at h

/-- Every error the property loop reports carries some property's
qualified dotted path under the node's name. -/
theorem enrichProps_err_shape (ck : String → Bool) (cn : String)
    (req : List String) :
    ∀ (props : Props) (e : EnrichErr),
      (enrichProps ck cn req props).2 = some e →
        ∃ pn e0, e = .atProperty (cn ++ "." ++ pn) e0 := by
  intro props
  match props with
  | .nil => intro e h; simp [enrichProps] at h
  | .cons pname r rest =>
    have ih := enrichProps_err_shape ck cn req rest
    intro e h
    cases r with
    | mk ref val =>
      cases val with
      | none =>
        simp only [enrichProps] at h
        exact ih e h
      | some c =>
        cases hs : (enrichPropStep ck cn pname req c).2 with
        | some e2 =>
          simp only [enrichProps, hs] at h
          injection h with h
          obtain ⟨e0, he0⟩ := enrichPropStep_err_shape ck cn pname req c e2 hs
          exact ⟨pname, e0, by rw [← h, he0]⟩
        | none =>
          simp only [enrichProps, hs] at h
          exact ih e h

/-- The document pass's error list is the concatenation of the per-root
subtree error lists, over exactly the contexts the adapter yields. -/
theorem enrichSpec_errs_roots (ck : String → Bool) :
    ∀ schemas : List (String × SchemaRef),
      (enrichSpec ck schemas).2 =
        ((toSchemaContext schemas).1.map
          (fun ctx => (enrichTree ck (Schema.size ctx.1) ctx.2 ctx.1).2)).flatten := by
  intro schemas
  induction schemas with
  | nil => rfl
  | cons e rest ih =>
    obtain ⟨name, r⟩ := e
    cases r with
    | mk ref v =>
      cases v with
      | none => simp [enrichSpec, toSchemaContext, ih]
      | some s => simp [enrichSpec, toSchemaContext, ih]

/-- C3 (amended).  For every document, the orchestrator visits every node
regardless of earlier failures and aggregates one path-qualified error per
failing node: the aggregate of a subtree visit is exactly the
concatenation, over the pre-order visit of every node of the original
document, of that node's single optional `enrichNode` error (so N failing
nodes contribute N errors wherever they sit, and descendants of a failed
node are still visited and reported); every such error carries a
property's qualified dotted path; and the document-level aggregate
concatenates the per-root subtree aggregates over all adapter-yielded
roots.  (Within a single node the property loop stops at the first failing
property; see the counterexample.) -/
theorem c3_node_level_accumulation :
    (∀ (compileOk : String → Bool) (ctxName : String) (s : Schema) (e : EnrichErr),
        (enrichNode compileOk ctxName s).2 = some e →
          ∃ propName e0, e = .atProperty (ctxName ++ "." ++ propName) e0)
    ∧ (∀ (compileOk : String → Bool) (fuel : Nat) (name : String) (s : Schema),
        (enrichTree compileOk fuel name s).2 =
          ((ctxPreOrder fuel (s, name)).map
            (fun ctx => optErrList (enrichNode compileOk ctx.2 ctx.1).2)).flatten)
    ∧ (∀ (compileOk : String → Bool) (schemas : List (String × SchemaRef)),
        (enrichSpec compileOk schemas).2 =
          ((toSchemaContext schemas).1.map
            (fun ctx => (enrichTree compileOk (Schema.size ctx.1) ctx.2 ctx.1).2)).flatten) := by
  refine ⟨?_, ?_, ?_⟩
  · intro ck cn s e h
    have h2 : (enrichProps ck cn s.required s.properties).2 = some e := h
    exact enrichProps_err_shape ck cn s.required s.properties e h2
  · exact fun ck => enrichTree_errs_preorder ck
  · exact fun ck => enrichSpec_errs_roots ck

/-- C3 witness: the per-node error decomposition at a concrete failing
subtree. -/
theorem c3_witness :
    (enrichTree ckTrue 3 "A" (oneBadRoot "p")).2 =
      ((ctxPreOrder 3 (oneBadRoot "p", "A")).map
        (fun ctx => optErrList (enrichNode ckTrue ctx.2 ctx.1).2)).flatten :=
  c3_node_level_accumulation.2.1 ckTrue 3 "A" (oneBadRoot "p")

/-- C4 counterexample: after a full enrichment pass, the root component's
indirection marker is cleared, but the nested property reference — from
which a traversal node was produced — still carries its `Ref` marker
`#/components/schemas/B`, refuting the claim that the adapter clears the
marker on every reference it yields a node from. -/
theorem c4_counterexample :
    (enrichSpec ckTrue refMarkerDoc).2 = []
    ∧ (docRef (enrichSpec ckTrue refMarkerDoc).1 "A").map SchemaRef.ref = some ""
    ∧ propRefAt (enrichSpec ckTrue refMarkerDoc).1 "A" "p" =
        some "#/components/schemas/B" := by
  decide

end Oapi

namespace Oapi

/-- Extraction touches only extensions, never property references. -/
theorem extract_propRefs (s : Schema) :
    ((extractAndResetValidateRules s).2.2).propRefs = s.propRefs := by
  unfold extractAndResetValidateRules
  split
  · simp [propRefs_setExtensions]
  · rfl

/-- A property step touches only extensions, never property references. -/
theorem enrichPropStep_propRefs (ck : String → Bool) (cn pn : String)
    (req : List String) (ps : Schema) :
    ((enrichPropStep ck cn pn req ps).1).propRefs = ps.propRefs := by
  unfold enrichPropStep
  split
  · rfl
  · dsimp only
    repeat' split
    all_goals simp [propRefs_setExtensions, extract_propRefs]

/-- The property loop preserves every property reference marker. -/
theorem enrichProps_refsList (ck : String → Bool) (cn : String) (req : List String) :
    ∀ props : Props, Props.refsList (enrichProps ck cn req props).1 = Props.refsList props := by
  intro props
  match props with
  | .nil => rfl
  | .cons pname r rest =>
    have ih := enrichProps_refsList ck cn req rest
    cases r with
    | mk ref val =>
      cases val with
      | none => simp [enrichProps, Props.refsList, SchemaRef.refEntry, ih]
      | some ps =>
        cases hs : (enrichPropStep ck cn pname req ps).2 with
        | some e =>
          simp [enrichProps, hs, Props.refsList, SchemaRef.refEntry,
            enrichPropStep_propRefs]
        | none =>
          simp [enrichProps, hs, Props.refsList, SchemaRef.refEntry,
            enrichPropStep_propRefs, ih]

/-- The child walk preserves property reference markers whenever the
recursive visit does. -/
theorem enrichChildrenF_refsList
    (enrich : String → Schema → Schema × List EnrichErr)
    (henrich : ∀ (nm : String) (c : Schema), ((enrich nm c).1).propRefs = c.propRefs)
    (pn : String) :
    ∀ props : Props,
      Props.refsList (enrichChildrenF enrich pn props).1 = Props.refsList props := by
  intro props
  match props with
  | .nil => rfl
  | .cons pname r rest =>
    have ih := enrichChildrenF_refsList enrich henrich pn rest
    cases r with
    | mk ref val =>
      cases val with
      | none => simp [enrichChildrenF, Props.refsList, SchemaRef.refEntry, ih]
      | some c =>
        simp [enrichChildrenF, Props.refsList, SchemaRef.refEntry, henrich, ih]

/-- `enrichNode` preserves every property reference marker. -/
theorem enrichNode_props_refsList (ck : String → Bool) (name : String) (s : Schema) :
    Props.refsList ((enrichNode ck name s).1.properties) = Props.refsList s.properties := by
  simp [enrichNode, properties_setProps, enrichProps_refsList]

/-- C4 (amended).  The adapter clears the indirection marker only on root
component references: `toSchemaContext` blanks the `Ref` of exactly the
entries with a resolved value, while `getChildren` and the whole enrichment
walk never modify any property reference's `Ref` marker, at any depth. -/
theorem c4_ref_clearing :
    (∀ schemas : List (String × SchemaRef),
        (toSchemaContext schemas).2 = schemas.map (fun e =>
          match e with
          | (name, SchemaRef.mk ref .none) => (name, SchemaRef.mk ref .none)
          | (name, SchemaRef.mk _ (.some s)) => (name, SchemaRef.mk "" (.some s))))
    ∧ (∀ (compileOk : String → Bool) (fuel : Nat) (name : String) (s : Schema),
        ((enrichTree compileOk fuel name s).1).propRefs = s.propRefs) := by
  constructor
  · intro schemas
    induction schemas with
    | nil => rfl
    | cons e rest ih =>
      obtain ⟨name, r⟩ := e
      cases r with
      | mk ref v =>
        cases v with
        | none => simp [toSchemaContext, ih]
        | some s => simp [toSchemaContext, ih]
  · intro ck fuel
    induction fuel with
    | zero => intro name s; rfl
    | succ f ih =>
      intro name s
      simp only [enrichTree]
      rw [propRefs_setProps]
      rw [enrichChildrenF_refsList _ (fun nm c => ih nm c)]
      rw [enrichNode_props_refsList]
      rw [← propRefs_eq_refsList]

/-- C4 witness: property-reference preservation at a concrete subtree. -/
theorem c4_witness :
    (enrichTree ckTrue 3 "A" (oneBadRoot "p")).1.propRefs = (oneBadRoot "p").propRefs :=
  c4_ref_clearing.2 ckTrue 3 "A" (oneBadRoot "p")

end Oapi

namespace tree

/-- C8.  `tree.PreOrder` enumerates exactly the nodes of a finite acyclic
forest in depth-first pre-order: each node is emitted first in its own
block, everything after it inside its block is exactly its strict
descendant set, roots (and, one level down, siblings) are visited
left-to-right with their whole blocks in sequence, and the enumeration
contains precisely the forest's nodes. -/
theorem c8_preorder_spec (α : Type) :
    (∀ t : Node α, (walk t).head? = some t)
    ∧ (∀ t s : Node α, s ∈ (walk t).tail ↔ Desc s t)
    ∧ (∀ (t : Node α) (f : Forest α),
        PreOrder (Forest.cons t f) = walk t ++ PreOrder f)
    ∧ (∀ (roots : Forest α) (s : Node α),
        s ∈ PreOrder roots ↔ ∃ c, c ∈ roots.toList ∧ (s = c ∨ Desc s c)) := by
  refine ⟨?_, ?_, ?_, ?_⟩
  · intro t
    cases t with
    | node a f => rfl
  · intro t s
    cases t with
    | node a f =>
      show s ∈ walkForest f ↔ Desc s (.node a f)
      rw [mem_walkForest f s, desc_node_iff]
  · intro t f
    rfl
  · intro roots s
    exact mem_walkForest roots s

/-- C8 witness: the head of a concrete two-node walk is its root. -/
theorem c8_witness :
    (walk (Node.node (1 : Nat) (.cons (.node 2 .nil) .nil))).head? =
      some (.node 1 (.cons (.node 2 .nil) .nil)) :=
  (c8_preorder_spec Nat).1 _

end tree

namespace Oapi

/-- The first merge loop keeps exactly the trimmed non-blank existing
rules, in order. -/
theorem mergeExistingLoop_fst : ∀ l : List String,
    (mergeExistingLoop l).1 = cleanseRules l := by
  intro l
  induction l with
  | nil => rfl
  | cons p rest ih =>
    by_cases h : trimStr p = ""
    · simp [mergeExistingLoop, h, cleanseRules, ih, List.filter_cons]
    · simp [mergeExistingLoop, h, cleanseRules, ih, List.filter_cons]

/-- A successful second merge loop returns the accumulated rules followed
by exactly the generated rules whose key is unbound when processed
(`freshSelect`): identically-bound tokens are skipped, never appended
twice. -/
theorem mergeNewLoop_ok_eq : ∀ (ts rules : List String)
    (keys : List (String × String)) (res : List String),
    mergeNewLoop rules keys ts = .ok res → res = rules ++ freshSelect keys ts := by
  intro ts
  induction ts with
  | nil =>
    intro rules keys res h
    simp only [mergeNewLoop, Except.ok.injEq] at h
    simp [freshSelect, h]
  | cons t ts ih =>
    intro rules keys res h
    simp only [mergeNewLoop] at h
    cases hl : lookupA (getTagKey t) keys with
    | some u =>
      rw [hl] at h
      dsimp only at h
      by_cases hu : u = t
      · rw [hu] at h
        rw [if_neg (by simp)] at h
        rw [ih rules keys res h]
        simp [freshSelect, hl]
      · rw [if_pos hu] at h
        simp at h
    | none =>
      rw [hl] at h
      dsimp only at h
      rw [ih _ _ _ h]
      simp [freshSelect, hl]

/-- The second merge loop fails exactly when some generated rule differs
from the binding its key has at the moment it is processed. -/
theorem mergeNewLoop_error_iff : ∀ (ts : List String) (rules : List String)
    (keys : List (String × String)),
    (∃ e, mergeNewLoop rules keys ts = .error e) ↔
      ∃ i t u, ts.get? i = some t
        ∧ lookupA (getTagKey t) (keysAfter keys (ts.take i)) = some u ∧ u ≠ t := by
  intro ts
  induction ts with
  | nil =>
    intro rules keys
    simp [mergeNewLoop]
  | cons t ts ih =>
    intro rules keys
    cases hl : lookupA (getTagKey t) keys with
    | some u =>
      by_cases hu : u = t
      · rw [hu] at hl
        have hbranch : ∀ e, (mergeNewLoop rules keys (t :: ts) = .error e) ↔
            (mergeNewLoop rules keys ts = .error e) := by
          intro e
          simp [mergeNewLoop, hl]
        constructor
        · rintro ⟨e, he⟩
          obtain ⟨i, t2, u2, hget, hlook, hne⟩ := (ih rules keys).1 ⟨e, (hbranch e).1 he⟩
          refine ⟨i + 1, t2, u2, by simpa using hget, ?_, hne⟩
          simpa [List.take, keysAfter, hl] using hlook
        · rintro ⟨i, t2, u2, hget, hlook, hne⟩
          match i with
          | 0 =>
            simp only [List.get?] at hget
            injection hget with hget
            subst hget
            simp only [List.take, keysAfter] at hlook
            rw [hl] at hlook
            injection hlook with hlook
            exact absurd hlook.symm hne
          | i + 1 =>
            have hget2 : ts.get? i = some t2 := by simpa using hget
            have hlook2 : lookupA (getTagKey t2) (keysAfter keys (ts.take i)) = some u2 := by
              simpa [List.take, keysAfter, hl] using hlook
            obtain ⟨e, he⟩ := (ih rules keys).2 ⟨i, t2, u2, hget2, hlook2, hne⟩
            exact ⟨e, (hbranch e).2 he⟩
      · refine iff_of_true ⟨.conflict u t, ?_⟩ ⟨0, t, u, rfl, ?_, hu⟩
        · simp [mergeNewLoop, hl, hu]
        · simpa [List.take, keysAfter] using hl
    | none =>
      have hbranch : ∀ e, (mergeNewLoop rules keys (t :: ts) = .error e) ↔
          (mergeNewLoop (rules ++ [t]) (keys ++ [(getTagKey t, t)]) ts = .error e) := by
        intro e
        simp [mergeNewLoop, hl]
      constructor
      · rintro ⟨e, he⟩
        obtain ⟨i, t2, u2, hget, hlook, hne⟩ :=
          (ih (rules ++ [t]) (keys ++ [(getTagKey t, t)])).1 ⟨e, (hbranch e).1 he⟩
        refine ⟨i + 1, t2, u2, by simpa using hget, ?_, hne⟩
        simpa [List.take, keysAfter, hl] using hlook
      · rintro ⟨i, t2, u2, hget, hlook, hne⟩
        match i with
        | 0 =>
          simp only [List.get?] at hget
          injection hget with hget
          subst hget
          simp only [List.take, keysAfter] at hlook
          rw [hl] at hlook
          exact absurd hlook (by simp)
        | i + 1 =>
          have hget2 : ts.get? i = some t2 := by simpa using hget
          have hlook2 : lookupA (getTagKey t2)
              (keysAfter (keys ++ [(getTagKey t, t)]) (ts.take i)) = some u2 := by
            simpa [List.take, keysAfter, hl] using hlook
          obtain ⟨e, he⟩ := (ih (rules ++ [t]) (keys ++ [(getTagKey t, t)])).2
            ⟨i, t2, u2, hget2, hlook2, hne⟩
          exact ⟨e, (hbranch e).2 he⟩

/-- C6 (amended).  A successful merge returns the trimmed non-blank
existing rules in original order as the prefix of the result, followed by
exactly those generated rules, in generator order, whose key is not yet
bound when they are processed — bound either by an existing rule or by an
earlier appended generated rule; a generated rule whose key is bound to a
byte-identical token is skipped, with no duplicate appended.  The merge
fails if and only if some generated rule's key is bound to a different
full token at the moment that rule is processed. -/
theorem c6_merge_characterization :
    (∀ (ex new res : List String),
        mergeRules ex new = .ok res →
          res = cleanseRules ex ++ freshSelect (mergeExistingLoop ex).2 new)
    ∧ (∀ ex new : List String,
        (∃ e, mergeRules ex new = .error e) ↔
          ∃ i t u, new.get? i = some t
            ∧ lookupA (getTagKey t)
                (keysAfter (mergeExistingLoop ex).2 (new.take i)) = some u
            ∧ u ≠ t) := by
  constructor
  · intro ex new res h
    rw [mergeNewLoop_ok_eq new _ _ _ h, mergeExistingLoop_fst]
  · intro ex new
    exact mergeNewLoop_error_iff new _ _

/-- C6 witness: merging `min=5` into stored `manual_tag` keeps the manual
rule first and appends exactly the fresh generated one. -/
theorem c6_witness :
    ["manual_tag", "min=5"] =
      cleanseRules ["manual_tag"]
        ++ freshSelect (mergeExistingLoop ["manual_tag"]).2 ["min=5"] :=
  c6_merge_characterization.1 ["manual_tag"] ["min=5"] ["manual_tag", "min=5"] rfl

/-- C6 counterexample: with no existing rules at all, `mergeRules`
nevertheless fails on `[min=3, min=4]` (two generated rules sharing a key),
refuting the claimed failure condition; and a padded existing rule is
returned trimmed, not verbatim. -/
theorem c6_counterexample :
    mergeRules [] ["min=3", "min=4"] = .error (.conflict "min=3" "min=4")
    ∧ mergeRules [" a"] [] = .ok ["a"] := by
  exact ⟨rfl, rfl⟩

end Oapi

namespace Oapi

/-- C5 witness: the required branch at a concrete unconstrained property
named in the parent's required list. -/
theorem c5_witness :
    enrichPropStep ckTrue "A" "u" ["u"] emptySchema =
      (emptySchema.setExtensions
        (insertA tagKey
          (.map (insertA validate (.str (joinComma ("required" :: []))) []))
          emptySchema.extensions), Option.none)
    ∧ (enrichPropStep ckTrue "A" "u" ["u"] emptySchema).1.storedValidate =
        some (joinComma ("required" :: [])) :=
  (c5_prefix_decision ckTrue "A" "u" ["u"] emptySchema [] [] [] emptySchema []
    rfl rfl rfl).1 rfl

/-- C9 witness: deleting the outer key discards an unrelated inner entry
(`json: snake`) stored under it. -/
theorem c9_witness :
    enrichPropStep ckTrue "A" "p" []
        (.mk {} [] [(tagKey, .map [("json", .str "snake")])] .nil) =
      ((Schema.mk {} [] [(tagKey, .map [("json", .str "snake")])] .nil).setExtensions
        (eraseA tagKey
          (Schema.mk {} [] [(tagKey, .map [("json", .str "snake")])] .nil).extensions),
        Option.none)
    ∧ lookupA tagKey
        (eraseA tagKey
          (Schema.mk {} [] [(tagKey, .map [("json", .str "snake")])] .nil).extensions) =
        Option.none :=
  c9_outer_key_deleted ckTrue "A" "p" []
    (.mk {} [] [(tagKey, .map [("json", .str "snake")])] .nil)
    [("json", .str "snake")]
    (.mk {} [] [(tagKey, .map [("json", .str "snake")])] .nil)
    rfl rfl rfl

end Oapi
